import Mathlib

/-!
Verification of the FX ETL merge engine and cross-rate deriver.

Shallow embedding of the two source files (`main.py`, `backfill_90d.py`).
A pandas DataFrame is modelled as a schema (list of currency column names,
the date column kept separately) together with a list of rows, each row a
date paired with an association list from column name to cell value.
Column names are assumed unique and every row carries exactly the schema's
keys (the `DF.WF` predicate); pandas itself misbehaves outside that regime
(duplicate labels make `update` raise).

Cell values are floats in the source; they are modelled by `PVal`:
an explicit missing marker (NaN), a finite rational, or a signed infinity,
with division following IEEE float semantics exactly (the claims under
study only distinguish missing / zero / infinite / finite-exact values,
never rounding). Dates are modelled as naturals (e.g. 20240102).
-/

namespace FxEtl

abbrev Date := Nat

/-- A float cell: NaN/missing, a finite value, or a signed infinity. -/
inductive PVal where
  | na
  | fin (q : ℚ)
  | pinf
  | ninf
deriving DecidableEq, Repr

abbrev Row := List (String × PVal)

/-- A wide table: currency columns (the date column is implicit) and
dated rows whose cells are keyed by column name. -/
structure DF where
  cols : List String
  rows : List (Date × Row)
deriving DecidableEq, Repr

def PVal.isna : PVal → Bool
  | .na => true
  | _ => false

/-- Exact rational division, computed on numerators and denominators so
that concrete instances evaluate inside the kernel; `ratDiv_eq` below
proves it agrees with `Rat` division. -/
def ratDiv (a b : ℚ) : ℚ :=
  if 0 ≤ b.num then mkRat (a.num * b.den) (a.den * b.num.natAbs)
  else mkRat (-(a.num * b.den)) (a.den * b.num.natAbs)

/-- Float division as numpy performs it on these values (signed zeros of
the float world are collapsed onto `fin 0`). -/
def PVal.div : PVal → PVal → PVal
  | .na, _ => .na
  | _, .na => .na
  | .fin a, .fin b =>
      if b = 0 then (if a = 0 then .na else if 0 < a then .pinf else .ninf)
      else .fin (ratDiv a b)
  | .fin _, .pinf => .fin 0
  | .fin _, .ninf => .fin 0
  | .pinf, .fin b => if 0 ≤ b then .pinf else .ninf
  | .ninf, .fin b => if 0 ≤ b then .ninf else .pinf
  | .pinf, .pinf => .na
  | .pinf, .ninf => .na
  | .ninf, .pinf => .na
  | .ninf, .ninf => .na

/-- First cell stored under column `c`; missing when the key is absent
(pandas row access on an absent label inside `update`/arithmetic contexts
behaves as NaN after alignment). -/
def getCell : Row → String → PVal
  | [], _ => PVal.na
  | (k, v) :: rest, c => if k = c then v else getCell rest c

def hasKey : Row → String → Bool
  | [], _ => false
  | (k, _) :: rest, c => decide (k = c) || hasKey rest c

/-- The row stored at date `d`, if any (first match). -/
def findRow : List (Date × Row) → Date → Option Row
  | [], _ => none
  | (e, cells) :: rest, d => if e = d then some cells else findRow rest d

/-- Column alignment: rebuild a row so that it carries exactly the columns
`cols`, in order, filling absent columns with NaN. This is what `pd.concat`
does to each side when the two frames' schemas differ, and what selecting
`today_row[history.columns]` does to the daily row. -/
def reindexRow (cols : List String) (cells : Row) : Row :=
  cols.map fun c => (c, getCell cells c)

/-- One row's part of `hist_idx.update(last90_idx)`: a cell is overwritten
exactly when the batch has a non-NaN value at the same date and column. -/
def updateCells (brow : Row) (cells : Row) : Row :=
  cells.map fun kv =>
    if (getCell brow kv.1).isna then kv else (kv.1, getCell brow kv.1)

/-- Row order used by `sort_values("date")` / `sort_index()`:
stable ascending sort on the date. -/
def rowLE (a b : Date × Row) : Prop := a.1 ≤ b.1

instance : DecidableRel rowLE := fun a b => inferInstanceAs (Decidable (a.1 ≤ b.1))

instance : IsTotal (Date × Row) rowLE := ⟨fun a b => Nat.le_total a.1 b.1⟩

instance : IsTrans (Date × Row) rowLE := ⟨fun _ _ _ h1 h2 => Nat.le_trans h1 h2⟩

def sortByDate (rows : List (Date × Row)) : List (Date × Row) :=
  List.insertionSort rowLE rows

def DF.dates (df : DF) : List Date := df.rows.map Prod.fst

/-- Cell of `df` at date `d`, column `c`; missing when the date has no row. -/
def DF.cell (df : DF) (d : Date) (c : String) : PVal :=
  match findRow df.rows d with
  | some cells => getCell cells c
  | none => PVal.na

/-- Well-formed table: unique dates, unique column names, and every row
keyed exactly by the schema. -/
def DF.WF (df : DF) : Prop :=
  (df.rows.map Prod.fst).Nodup ∧ df.cols.Nodup ∧
    ∀ r ∈ df.rows, r.2.map Prod.fst = df.cols

instance (df : DF) : Decidable df.WF := by
  unfold DF.WF; exact inferInstance

/-- Schema after a merge: the history's columns followed by the incoming
frame's columns that the history does not know yet, in feed order. -/
def grownCols (histCols newCols : List String) : List String :=
  histCols ++ newCols.filter fun c => decide (c ∉ histCols)

/-- `main.upsert_daily_row`: if the (first) date of the daily frame is
already present, return the history untouched; otherwise grow the schema
with the daily frame's unseen currencies (all-NaN for old rows), append
the daily rows reindexed to the grown schema (`today_row[history.columns]`
raises `KeyError` — modelled as `none` — when the history owns a currency
the daily frame lacks), and stably sort by date. -/
def upsert_daily_row (history today_row : DF) : Option DF :=
  match today_row.rows with
  | [] => some history
  | (d, _) :: _ =>
    if (findRow history.rows d).isSome then some history
    else if history.cols.all fun c => decide (c ∈ today_row.cols) then
      some { cols := grownCols history.cols today_row.cols,
             rows := sortByDate
               ((history.rows.map fun r =>
                  (r.1, reindexRow (grownCols history.cols today_row.cols) r.2)) ++
                (today_row.rows.map fun r =>
                  (r.1, reindexRow (grownCols history.cols today_row.cols) r.2))) }
    else none

/-- The history rows after `hist_idx.update(last90_idx)`. -/
def updatedRows (hist last90 : DF) : List (Date × Row) :=
  hist.rows.map fun r =>
    match findRow last90.rows r.1 with
    | none => r
    | some brow => (r.1, updateCells brow r.2)

/-- The batch rows whose dates are absent from the history
(`last90_idx.index.difference(hist_idx.index)`). -/
def missingRows (hist last90 : DF) : List (Date × Row) :=
  last90.rows.filter fun r => (findRow hist.rows r.1).isNone

/-- `backfill_90d.upsert_90d_into_history`: an empty history is replaced by
the batch as-is; otherwise `update` overwrites cells of the existing schema
with the batch's non-NaN values at shared dates (batch columns outside the
history's schema are ignored by `update`), rows at batch-only dates are
concatenated — which is the only step that widens the schema — and the
result is sorted by date. -/
def upsert_90d_into_history (hist last90 : DF) : DF :=
  if hist.rows.isEmpty then last90
  else if (missingRows hist last90).isEmpty then
    { cols := hist.cols, rows := sortByDate (updatedRows hist last90) }
  else
    { cols := grownCols hist.cols last90.cols,
      rows := sortByDate
        ((updatedRows hist last90 ++ missingRows hist last90).map fun r =>
          (r.1, reindexRow (grownCols hist.cols last90.cols) r.2)) }

/-- Where the merged row of an existing history date comes from: the
history's cells, overwritten by the batch's non-NaN values when the batch
covers that date, and reindexed to the grown schema when the batch also
contributed new dates. -/
def mergedRowAt (hist last90 : DF) (d : Date) (cells : Row) : Row :=
  let upd := match findRow last90.rows d with
    | none => cells
    | some brow => updateCells brow cells
  if (missingRows hist last90).isEmpty then upd
  else reindexRow (grownCols hist.cols last90.cols) upd

/-- How one output column of `compute_pln_rates` is produced: `EUR_PLN`
copies the PLN base column, every other `<CCY>_PLN` divides PLN by CCY. -/
inductive Deriv where
  | base
  | ratio (ccy : String)
deriving DecidableEq, Repr

/-- Column assignment `out[name] = series`: overwrite in place if the name
exists, else append. -/
def upsertCol (acc : List (String × Deriv)) (p : String × Deriv) : List (String × Deriv) :=
  if acc.any fun q => decide (q.1 = p.1) then
    acc.map fun q => if q.1 = p.1 then (q.1, p.2) else q
  else acc ++ [p]

/-- One iteration of the target loop in `compute_pln_rates`: EUR is
special-cased away, targets without a base column are silently skipped,
the rest assign the `<CCY>_PLN` column. -/
def derivStep (df : DF) (acc : List (String × Deriv)) (ccy : String) :
    List (String × Deriv) :=
  if ccy = "EUR" then acc
  else if decide (ccy ∈ df.cols) then upsertCol acc (ccy ++ "_PLN", Deriv.ratio ccy)
  else acc

/-- The output schema of `compute_pln_rates` and each column's recipe:
`EUR_PLN` first when EUR is targeted, then one `<CCY>_PLN` per non-EUR
target that exists as a history column (others silently skipped). -/
def derivCols (df : DF) (targets : List String) : List (String × Deriv) :=
  targets.foldl (derivStep df)
    (if "EUR" ∈ targets then [("EUR_PLN", Deriv.base)] else [])

def plnCell (cells : Row) : Deriv → PVal
  | .base => getCell cells "PLN"
  | .ratio c => PVal.div (getCell cells "PLN") (getCell cells c)

/-- `compute_pln_rates` (identical in both source files): requires the PLN
base column (else the fatal missing-base-currency error, modelled as
`none`), computes every derived column row-wise, drops rows whose derived
cells are all NaN (`dropna(how="all", subset=...)`), and sorts by date. -/
def compute_pln_rates (df : DF) (targets : List String) : Option DF :=
  if "PLN" ∈ df.cols then
    let dcols := derivCols df targets
    let derived := df.rows.map fun r => (r.1, dcols.map fun p => (p.1, plnCell r.2 p.2))
    let kept := derived.filter fun r => r.2.any fun cv => !cv.2.isna
    some { cols := dcols.map Prod.fst, rows := sortByDate kept }
  else none

/-- The two merge entry points, as invokable operations on a history
(daily flow vs backfill flow). -/
inductive MergeOp where
  | daily (obs : DF)
  | batch (b : DF)

def MergeOp.obs : MergeOp → DF
  | .daily o => o
  | .batch b => b

def applyOp (h : DF) : MergeOp → Option DF
  | .daily o => upsert_daily_row h o
  | .batch b => some (upsert_90d_into_history h b)

def applySeq (h : DF) : List MergeOp → Option DF
  | [] => some h
  | op :: ops =>
    match applyOp h op with
    | none => none
    | some h2 => applySeq h2 ops

/-- A valid feed delivery: the daily flow contributes at most one row, a
backfill batch carries pairwise distinct dates (`fetch_ecb_90d_xml`
deduplicates by date before merging). -/
def MergeOp.valid : MergeOp → Bool
  | .daily o => decide (o.rows.length ≤ 1)
  | .batch b => decide (b.rows.map Prod.fst).Nodup

/-- Input discipline for the sort invariant: daily delivery of at most one
row; backfill batch already strictly ascending by date. -/
def strictAsc : List Date → Bool
  | [] => true
  | [_] => true
  | a :: b :: rest => decide (a < b) && strictAsc (b :: rest)

def MergeOp.ascInput : MergeOp → Bool
  | .daily o => decide (o.rows.length ≤ 1)
  | .batch b => strictAsc (b.rows.map Prod.fst)

/-! ### Concrete tables used in counterexamples and witnesses -/

def c1Hist : DF := ⟨["USD"], [(1, [("USD", PVal.fin (mkRat 1 1))])]⟩

def c1Batch : DF :=
  ⟨["USD", "GBP"], [(1, [("USD", PVal.fin (mkRat 11 10)), ("GBP", PVal.fin (mkRat 2 1))])]⟩

def c1wHist : DF :=
  ⟨["USD", "GBP"], [(1, [("USD", PVal.fin (mkRat 1 1)), ("GBP", PVal.fin (mkRat 2 1))])]⟩

def c1wBatch : DF := ⟨["USD"], [(1, [("USD", PVal.fin (mkRat 11 10))])]⟩

def c2Df : DF :=
  ⟨["PLN", "USD"], [(0, [("PLN", PVal.fin (mkRat 87 20)), ("USD", PVal.fin 0)])]⟩

def c2Out : DF := ⟨["USD_PLN"], [(0, [("USD_PLN", PVal.pinf)])]⟩

def c3Hist : DF := ⟨["USD"], [(1, [("USD", PVal.fin (mkRat 1 1))])]⟩

def c3Batch : DF :=
  ⟨["USD", "GBP"],
    [(1, [("USD", PVal.fin (mkRat 11 10)), ("GBP", PVal.fin (mkRat 2 1))]),
     (2, [("USD", PVal.fin (mkRat 6 5)), ("GBP", PVal.fin (mkRat 21 10))])]⟩

def c3wHist : DF := ⟨["USD"], [(1, [("USD", PVal.fin (mkRat 1 1))])]⟩

def c3wBatch : DF :=
  ⟨["USD"], [(1, [("USD", PVal.fin (mkRat 11 10))]), (2, [("USD", PVal.fin (mkRat 6 5))])]⟩

def c4Empty : DF := ⟨[], []⟩

def c4Obs : DF :=
  ⟨["PLN", "USD"],
    [(20240102, [("PLN", PVal.fin (mkRat 87 20)), ("USD", PVal.fin (mkRat 11 10))])]⟩

def c4Hist : DF :=
  ⟨["PLN", "USD"],
    [(20240102, [("PLN", PVal.fin (mkRat 87 20)), ("USD", PVal.fin (mkRat 11 10))])]⟩

def c5Hist : DF := ⟨["USD"], [(20240105, [("USD", PVal.fin (mkRat 4 1))])]⟩

def c5Obs : DF := ⟨["USD"], [(20240105, [("USD", PVal.fin (mkRat 5 1))])]⟩

def c6Hist : DF := ⟨["USD"], [(1, [("USD", PVal.fin (mkRat 1 1))])]⟩

def c6Obs : DF :=
  ⟨["USD", "XYZ"], [(1, [("USD", PVal.fin (mkRat 11 10)), ("XYZ", PVal.fin (mkRat 2 1))])]⟩

def c6wHist : DF := ⟨["USD"], [(1, [("USD", PVal.fin (mkRat 1 1))])]⟩

def c6wCells : Row := [("USD", PVal.fin (mkRat 11 10)), ("XYZ", PVal.fin (mkRat 2 1))]

def c6wObs : DF := ⟨["USD", "XYZ"], [(2, c6wCells)]⟩

def c6wRes : DF :=
  ⟨["USD", "XYZ"],
    [(1, [("USD", PVal.fin (mkRat 1 1)), ("XYZ", PVal.na)]),
     (2, [("USD", PVal.fin (mkRat 11 10)), ("XYZ", PVal.fin (mkRat 2 1))])]⟩

def c7H0 : DF := ⟨[], []⟩

def c7Obs : DF := ⟨["USD"], [(1, [("USD", PVal.fin (mkRat 1 1))])]⟩

def c7Batch : DF :=
  ⟨["USD"], [(1, [("USD", PVal.fin (mkRat 11 10))]), (2, [("USD", PVal.fin (mkRat 6 5))])]⟩

def c7Ops : List MergeOp := [MergeOp.daily c7Obs, MergeOp.batch c7Batch]

def c7Res : DF :=
  ⟨["USD"], [(1, [("USD", PVal.fin (mkRat 11 10))]), (2, [("USD", PVal.fin (mkRat 6 5))])]⟩

def c8Hist : DF :=
  ⟨["USD"], [(2, [("USD", PVal.fin (mkRat 1 1))]), (1, [("USD", PVal.fin (mkRat 2 1))])]⟩

def c8Obs : DF := ⟨["USD"], [(2, [("USD", PVal.fin (mkRat 3 1))])]⟩

def c8wHist : DF := ⟨["USD"], [(1, [("USD", PVal.fin (mkRat 1 1))])]⟩

def c8wObs : DF := ⟨["USD"], [(2, [("USD", PVal.fin (mkRat 3 1))])]⟩

def c8wRes : DF :=
  ⟨["USD"], [(1, [("USD", PVal.fin (mkRat 1 1))]), (2, [("USD", PVal.fin (mkRat 3 1))])]⟩

def c10Hist : DF :=
  ⟨["USD", "GBP"], [(1, [("USD", PVal.fin (mkRat 1 1)), ("GBP", PVal.fin (mkRat 2 1))])]⟩

def c10Batch : DF :=
  ⟨["USD", "GBP"], [(1, [("USD", PVal.fin (mkRat 11 10)), ("GBP", PVal.na)])]⟩

/-! ### Basic lemmas about row lookup and cell access -/

theorem ratDiv_eq (a b : ℚ) : ratDiv a b = a / b := by
  unfold ratDiv
  rw [Rat.div_def']
  by_cases hb : 0 ≤ b.num
  · rw [if_pos hb, Rat.mkRat_eq_divInt]
    congr 1
    push_cast [Int.natAbs_of_nonneg hb]
    ring
  · rw [if_neg hb, Rat.mkRat_eq_divInt]
    have hb2 : (b.num.natAbs : ℤ) = -b.num :=
      Int.ofNat_natAbs_of_nonpos (Int.le_of_lt (Int.lt_of_not_ge hb))
    have hden : ((a.den * b.num.natAbs : ℕ) : ℤ) = -((a.den : ℤ) * b.num) := by
      push_cast [hb2]
      ring
    rw [hden, Rat.divInt_neg, neg_neg]

theorem findRow_eq_none_iff (rows : List (Date × Row)) (d : Date) :
    findRow rows d = none ↔ d ∉ rows.map Prod.fst := by
  induction rows with
  | nil => simp [findRow]
  | cons r rest ih =>
    obtain ⟨e, cells⟩ := r
    by_cases he : e = d
    · subst he
      simp [findRow]
    · simp only [findRow, if_neg he, ih, List.map_cons, List.mem_cons]
      constructor
      · intro h hm
        rcases hm with hm | hm
        · exact he hm.symm
        · exact h hm
      · intro h hm
        exact h (Or.inr hm)

theorem findRow_isSome_iff (rows : List (Date × Row)) (d : Date) :
    (findRow rows d).isSome = true ↔ d ∈ rows.map Prod.fst := by
  rcases h : findRow rows d with _ | cells
  · simp [(findRow_eq_none_iff rows d).1 h]
  · simp only [Option.isSome_some, true_iff]
    by_contra hmem
    rw [← findRow_eq_none_iff rows d] at hmem
    rw [h] at hmem
    exact Option.some_ne_none cells hmem

theorem findRow_mem {rows : List (Date × Row)} {d : Date} {cells : Row}
    (h : findRow rows d = some cells) : (d, cells) ∈ rows := by
  induction rows with
  | nil => simp [findRow] at h
  | cons r rest ih =>
    obtain ⟨e, cs⟩ := r
    simp only [findRow] at h
    by_cases he : e = d
    · rw [if_pos he] at h
      have hcs : cs = cells := Option.some.inj h
      subst hcs; subst he
      exact List.mem_cons_self _ _
    · rw [if_neg he] at h
      exact List.mem_cons_of_mem _ (ih h)

theorem findRow_eq_some_of_mem {rows : List (Date × Row)} {d : Date} {cells : Row}
    (hnd : (rows.map Prod.fst).Nodup) (hmem : (d, cells) ∈ rows) :
    findRow rows d = some cells := by
  induction rows with
  | nil => simp at hmem
  | cons r rest ih =>
    obtain ⟨e, cs⟩ := r
    simp only [List.map_cons, List.nodup_cons] at hnd
    rcases List.mem_cons.1 hmem with heq | hmem2
    · rw [Prod.mk.injEq] at heq
      obtain ⟨h1, h2⟩ := heq
      subst h1; subst h2
      simp [findRow]
    · have hne : e ≠ d := by
        intro he
        subst he
        exact hnd.1 (List.mem_map.2 ⟨(e, cells), hmem2, rfl⟩)
      simp only [findRow, if_neg hne]
      exact ih hnd.2 hmem2

theorem findRow_congr_perm {rows rows2 : List (Date × Row)}
    (hp : rows.Perm rows2) (hnd : (rows.map Prod.fst).Nodup) (d : Date) :
    findRow rows d = findRow rows2 d := by
  have hnd2 : (rows2.map Prod.fst).Nodup := ((hp.map Prod.fst).nodup_iff).1 hnd
  rcases h : findRow rows d with _ | cells
  · have hd : d ∉ rows.map Prod.fst := (findRow_eq_none_iff rows d).1 h
    have hd2 : d ∉ rows2.map Prod.fst := fun hmem =>
      hd ((hp.map Prod.fst).mem_iff.2 hmem)
    exact ((findRow_eq_none_iff rows2 d).2 hd2).symm
  · exact (findRow_eq_some_of_mem hnd2 (hp.mem_iff.1 (findRow_mem h))).symm

theorem getCell_eq_na_of_not_mem {cells : Row} {c : String}
    (h : c ∉ cells.map Prod.fst) : getCell cells c = PVal.na := by
  induction cells with
  | nil => rfl
  | cons kv rest ih =>
    obtain ⟨k, v⟩ := kv
    simp only [List.map_cons, List.mem_cons] at h
    push_neg at h
    simp only [getCell, if_neg (fun he : k = c => h.1 he.symm)]
    exact ih h.2

theorem getCell_reindexRow {cols : List String} {c : String} (cells : Row)
    (hc : c ∈ cols) : getCell (reindexRow cols cells) c = getCell cells c := by
  induction cols with
  | nil => simp at hc
  | cons c0 rest ih =>
    by_cases he : c0 = c
    · subst he
      simp [reindexRow, getCell]
    · rcases List.mem_cons.1 hc with heq | hmem
      · exact absurd heq.symm he
      · simp only [reindexRow, List.map_cons, getCell, if_neg he]
        exact ih hmem

theorem updateCells_cons (brow : Row) (kv : String × PVal) (rest : Row) :
    updateCells brow (kv :: rest) =
      (if (getCell brow kv.1).isna then kv else (kv.1, getCell brow kv.1)) ::
        updateCells brow rest := rfl

theorem getCell_updateCells (brow cells : Row) (c : String) :
    getCell (updateCells brow cells) c =
      if c ∈ cells.map Prod.fst then
        (if (getCell brow c).isna then getCell cells c else getCell brow c)
      else PVal.na := by
  induction cells with
  | nil => simp [updateCells, getCell]
  | cons kv rest ih =>
    obtain ⟨k, v⟩ := kv
    rw [updateCells_cons]
    by_cases he : k = c
    · subst he
      by_cases hna : (getCell brow k).isna
      · rw [if_pos hna]
        simp [getCell, hna]
      · rw [if_neg hna]
        simp [getCell, hna]
    · have hck : (c = k) = False := eq_false fun h => he h.symm
      by_cases hna : (getCell brow k).isna
      · rw [if_pos hna]
        simp only [getCell, if_neg he, List.map_cons, List.mem_cons, hck, false_or]
        rw [ih]
      · rw [if_neg hna]
        simp only [getCell, if_neg he, List.map_cons, List.mem_cons, hck, false_or]
        rw [ih]

theorem keys_updateCells (brow cells : Row) :
    (updateCells brow cells).map Prod.fst = cells.map Prod.fst := by
  unfold updateCells
  rw [List.map_map]
  apply List.map_congr_left
  intro kv _
  by_cases hna : (getCell brow kv.1).isna <;> simp [hna]

theorem keys_reindexRow (cols : List String) (cells : Row) :
    (reindexRow cols cells).map Prod.fst = cols := by
  unfold reindexRow
  rw [List.map_map]
  exact List.map_id'' (fun _ => rfl) cols

/-! ### Lemmas about the date sort -/

theorem sortByDate_perm (rows : List (Date × Row)) : (sortByDate rows).Perm rows :=
  List.perm_insertionSort rowLE rows

theorem sortByDate_sorted (rows : List (Date × Row)) :
    List.Pairwise rowLE (sortByDate rows) :=
  List.sorted_insertionSort rowLE rows

theorem sortByDate_eq_self {rows : List (Date × Row)}
    (h : List.Pairwise rowLE rows) : sortByDate rows = rows :=
  List.Sorted.insertionSort_eq h

theorem strictAsc_iff (l : List Date) :
    strictAsc l = true ↔ List.Pairwise (· < ·) l := by
  induction l with
  | nil => simp [strictAsc]
  | cons a rest ih =>
    cases rest with
    | nil => simp [strictAsc]
    | cons b rest2 =>
      rw [show strictAsc (a :: b :: rest2) = (decide (a < b) && strictAsc (b :: rest2))
          from rfl,
        Bool.and_eq_true, decide_eq_true_eq, ih]
      constructor
      · rintro ⟨hab, hp⟩
        refine List.pairwise_cons.2 ⟨fun x hx => ?_, hp⟩
        rcases List.mem_cons.1 hx with hx | hx
        · subst hx; exact hab
        · exact Nat.lt_trans hab (List.rel_of_pairwise_cons hp hx)
      · intro hp
        have h1 := List.pairwise_cons.1 hp
        exact ⟨h1.1 b (List.mem_cons_self _ _), h1.2⟩

theorem pairwise_lt_dates {rows : List (Date × Row)}
    (hs : List.Pairwise rowLE rows) (hnd : (rows.map Prod.fst).Nodup) :
    List.Pairwise (· < ·) (rows.map Prod.fst) := by
  rw [List.pairwise_map]
  rw [List.Nodup, List.pairwise_map] at hnd
  exact (hs.and hnd).imp fun h => Nat.lt_of_le_of_ne h.1 h.2

/-! ### Structural lemmas about the batch merge -/

theorem dates_updatedRows (hist last90 : DF) :
    (updatedRows hist last90).map Prod.fst = hist.rows.map Prod.fst := by
  unfold updatedRows
  rw [List.map_map]
  apply List.map_congr_left
  intro r _
  rcases hfb : findRow last90.rows r.1 with _ | brow <;> simp [hfb]

theorem dates_aligned (rows : List (Date × Row)) (cols : List String) :
    ((rows.map fun r => (r.1, reindexRow cols r.2)).map Prod.fst) =
      rows.map Prod.fst := by
  rw [List.map_map]
  apply List.map_congr_left
  intro r _
  rfl

theorem missingRows_dates_nodup (hist last90 : DF)
    (hb : (last90.rows.map Prod.fst).Nodup) :
    ((missingRows hist last90).map Prod.fst).Nodup :=
  ((List.filter_sublist last90.rows).map Prod.fst).nodup hb

theorem mem_missingRows_dates {hist last90 : DF} {d : Date}
    (h : d ∈ (missingRows hist last90).map Prod.fst) :
    d ∉ hist.rows.map Prod.fst := by
  obtain ⟨r, hr, hfst⟩ := List.mem_map.1 h
  have hp := (List.mem_filter.1 hr).2
  rw [Option.isNone_iff_eq_none] at hp
  subst hfst
  exact (findRow_eq_none_iff hist.rows r.1).1 hp

theorem hist_missing_dates_nodup (hist last90 : DF)
    (hh : (hist.rows.map Prod.fst).Nodup) (hb : (last90.rows.map Prod.fst).Nodup) :
    (hist.rows.map Prod.fst ++ (missingRows hist last90).map Prod.fst).Nodup := by
  rw [List.nodup_append]
  exact ⟨hh, missingRows_dates_nodup hist last90 hb,
    fun a ha hma => mem_missingRows_dates hma ha⟩

theorem isEmpty_false_of_mem {rows : List (Date × Row)} {r : Date × Row}
    (h : r ∈ rows) : rows.isEmpty = false := by
  cases rows with
  | nil => simp at h
  | cons a l => rfl

theorem merge_findRow_mem (hist last90 : DF) (hwf : hist.WF)
    (hbnd : (last90.rows.map Prod.fst).Nodup)
    {d : Date} {cells : Row} (hr : (d, cells) ∈ hist.rows) :
    findRow (upsert_90d_into_history hist last90).rows d =
      some (mergedRowAt hist last90 d cells) := by
  have hne : hist.rows.isEmpty = false := isEmpty_false_of_mem hr
  have hupd : (d, (match findRow last90.rows d with
      | none => cells
      | some brow => updateCells brow cells)) ∈ updatedRows hist last90 := by
    have := List.mem_map_of_mem
      (fun r => match findRow last90.rows r.1 with
        | none => r
        | some brow => (r.1, updateCells brow r.2)) hr
    rcases hfb : findRow last90.rows d with _ | brow
    · simpa [updatedRows, hfb] using this
    · simpa [updatedRows, hfb] using this
  unfold upsert_90d_into_history mergedRowAt
  rw [hne]
  simp only [Bool.false_eq_true, if_false]
  by_cases hm : (missingRows hist last90).isEmpty = true
  · rw [if_pos hm, if_pos hm]
    have hnd : ((updatedRows hist last90).map Prod.fst).Nodup := by
      rw [dates_updatedRows]; exact hwf.1
    have hnds : ((sortByDate (updatedRows hist last90)).map Prod.fst).Nodup :=
      (((sortByDate_perm _).map Prod.fst).nodup_iff).2 hnd
    rw [findRow_congr_perm (sortByDate_perm _) hnds d]
    exact findRow_eq_some_of_mem hnd hupd
  · rw [if_neg hm, if_neg hm]
    set cols := grownCols hist.cols last90.cols with hcols
    set L := (updatedRows hist last90 ++ missingRows hist last90).map fun r =>
      (r.1, reindexRow cols r.2) with hL
    have hdatesL : L.map Prod.fst =
        hist.rows.map Prod.fst ++ (missingRows hist last90).map Prod.fst := by
      rw [hL, dates_aligned, List.map_append, dates_updatedRows]
    have hndL : (L.map Prod.fst).Nodup := by
      rw [hdatesL]
      exact hist_missing_dates_nodup hist last90 hwf.1 hbnd
    have hmemL : (d, reindexRow cols (match findRow last90.rows d with
        | none => cells
        | some brow => updateCells brow cells)) ∈ L := by
      rw [hL]
      exact List.mem_map_of_mem _ (List.mem_append_left _ hupd)
    have hnds : ((sortByDate L).map Prod.fst).Nodup :=
      (((sortByDate_perm _).map Prod.fst).nodup_iff).2 hndL
    rw [findRow_congr_perm (sortByDate_perm _) hnds d]
    exact findRow_eq_some_of_mem hndL hmemL

theorem mem_grownCols_left {c : String} {hc0 nc0 : List String} (hc : c ∈ hc0) :
    c ∈ grownCols hc0 nc0 :=
  List.mem_append_left _ hc

theorem mem_grownCols_new {c : String} {hc0 nc0 : List String} (hc : c ∈ nc0)
    (hcn : c ∉ hc0) : c ∈ grownCols hc0 nc0 :=
  List.mem_append_right _ (List.mem_filter.2 ⟨hc, by simpa using hcn⟩)

theorem cell_of_findRow {df : DF} {d : Date} {cells : Row}
    (h : findRow df.rows d = some cells) (c : String) :
    df.cell d c = getCell cells c := by
  unfold DF.cell
  rw [h]

theorem cell_of_findRow_none {df : DF} {d : Date}
    (h : findRow df.rows d = none) (c : String) : df.cell d c = PVal.na := by
  unfold DF.cell
  rw [h]

/-- The merged cell at an existing date and existing column: the batch's
value when the batch covers the date with a non-NaN value, the history's
otherwise. -/
theorem merge_cell_mem (hist last90 : DF) (hwf : hist.WF)
    (hbnd : (last90.rows.map Prod.fst).Nodup)
    {d : Date} (hd : d ∈ hist.rows.map Prod.fst) {c : String} (hc : c ∈ hist.cols) :
    (upsert_90d_into_history hist last90).cell d c =
      match findRow last90.rows d with
      | none => hist.cell d c
      | some brow =>
        if (getCell brow c).isna then hist.cell d c else getCell brow c := by
  obtain ⟨r, hr, hfst⟩ := List.mem_map.1 hd
  obtain ⟨e, cells⟩ := r
  have he : e = d := hfst
  subst he
  have hcell : hist.cell e c = getCell cells c :=
    cell_of_findRow (findRow_eq_some_of_mem hwf.1 hr) c
  have hkeys : cells.map Prod.fst = hist.cols := hwf.2.2 _ hr
  rw [cell_of_findRow (merge_findRow_mem hist last90 hwf hbnd hr) c]
  rcases hfb : findRow last90.rows e with _ | brow
  · simp only [mergedRowAt, hfb, hcell]
    by_cases hm : (missingRows hist last90).isEmpty = true
    · rw [if_pos hm]
    · rw [if_neg hm, getCell_reindexRow _ (mem_grownCols_left hc)]
  · simp only [mergedRowAt, hfb]
    by_cases hm : (missingRows hist last90).isEmpty = true
    · rw [if_pos hm, getCell_updateCells, hkeys, if_pos hc, hcell]
    · rw [if_neg hm, getCell_reindexRow _ (mem_grownCols_left hc),
        getCell_updateCells, hkeys, if_pos hc, hcell]

/-- The merged cell at an existing date and a column unknown to the
history, when the batch does not cover that date: missing. -/
theorem merge_cell_mem_nocol (hist last90 : DF) (hwf : hist.WF)
    (hbnd : (last90.rows.map Prod.fst).Nodup)
    {d : Date} (hd : d ∈ hist.rows.map Prod.fst) {c : String} (hc : c ∉ hist.cols)
    (hfb : findRow last90.rows d = none) :
    (upsert_90d_into_history hist last90).cell d c = PVal.na := by
  obtain ⟨r, hr, hfst⟩ := List.mem_map.1 hd
  obtain ⟨e, cells⟩ := r
  have he : e = d := hfst
  subst he
  have hkeys : cells.map Prod.fst = hist.cols := hwf.2.2 _ hr
  have hna : getCell cells c = PVal.na :=
    getCell_eq_na_of_not_mem (by rw [hkeys]; exact hc)
  rw [cell_of_findRow (merge_findRow_mem hist last90 hwf hbnd hr) c]
  simp only [mergedRowAt, hfb]
  by_cases hm : (missingRows hist last90).isEmpty = true
  · rw [if_pos hm]
    exact hna
  · rw [if_neg hm]
    by_cases hcg : c ∈ grownCols hist.cols last90.cols
    · rw [getCell_reindexRow _ hcg]
      exact hna
    · exact getCell_eq_na_of_not_mem (by rw [keys_reindexRow]; exact hcg)

/-! ### Lemmas about the cross-rate deriver -/

theorem PVal.isna_true_iff (v : PVal) : v.isna = true ↔ v = PVal.na := by
  cases v <;> simp [PVal.isna]

theorem string_append_cancel {a b s : String} (h : a ++ s = b ++ s) : a = b := by
  have h2 : (a ++ s).data = (b ++ s).data := by rw [h]
  have h3 : a.data ++ s.data = b.data ++ s.data := by
    cases a; cases b; cases s; exact h2
  have h4 : a.data = b.data := List.append_cancel_right h3
  cases a; cases b; exact congrArg String.mk h4

theorem upsertCol_keys_nodup {acc : List (String × Deriv)} (p : String × Deriv)
    (h : (acc.map Prod.fst).Nodup) : ((upsertCol acc p).map Prod.fst).Nodup := by
  unfold upsertCol
  by_cases ha : (acc.any fun q => decide (q.1 = p.1)) = true
  · rw [if_pos ha]
    have hkeys : ((acc.map fun q => if q.1 = p.1 then (q.1, p.2) else q).map Prod.fst)
        = acc.map Prod.fst := by
      rw [List.map_map]
      apply List.map_congr_left
      intro q _
      by_cases hq : q.1 = p.1 <;> simp [hq]
    rw [hkeys]
    exact h
  · rw [if_neg ha, List.map_append, List.nodup_append]
    refine ⟨h, List.nodup_singleton _, fun x hx hx2 => ?_⟩
    have hxp : x = p.1 := by simpa using hx2
    subst hxp
    obtain ⟨q, hq, hq1⟩ := List.mem_map.1 hx
    exact ha (List.any_eq_true.2 ⟨q, hq, decide_eq_true hq1⟩)

theorem upsertCol_mem_of_ne {acc : List (String × Deriv)} {n : String} {dv : Deriv}
    (hm : (n, dv) ∈ acc) (p : String × Deriv) (hne : p.1 ≠ n) :
    (n, dv) ∈ upsertCol acc p := by
  unfold upsertCol
  by_cases ha : (acc.any fun q => decide (q.1 = p.1)) = true
  · rw [if_pos ha]
    exact List.mem_map.2 ⟨(n, dv), hm, if_neg fun h => hne h.symm⟩
  · rw [if_neg ha]
    exact List.mem_append_left _ hm

theorem upsertCol_mem_self (acc : List (String × Deriv)) (p : String × Deriv) :
    p ∈ upsertCol acc p := by
  unfold upsertCol
  by_cases ha : (acc.any fun q => decide (q.1 = p.1)) = true
  · rw [if_pos ha]
    obtain ⟨q, hq, hdec⟩ := List.any_eq_true.1 ha
    have hq1 : q.1 = p.1 := of_decide_eq_true hdec
    refine List.mem_map.2 ⟨q, hq, ?_⟩
    rw [if_pos hq1, hq1]
  · rw [if_neg ha]
    exact List.mem_append_right _ (List.mem_cons_self _ _)

theorem derivStep_keys_nodup (df : DF) (ccy : String) {acc : List (String × Deriv)}
    (h : (acc.map Prod.fst).Nodup) : ((derivStep df acc ccy).map Prod.fst).Nodup := by
  unfold derivStep
  by_cases h1 : ccy = "EUR"
  · rw [if_pos h1]; exact h
  · rw [if_neg h1]
    by_cases h2 : decide (ccy ∈ df.cols) = true
    · rw [if_pos h2]
      exact upsertCol_keys_nodup _ h
    · rw [if_neg h2]; exact h

theorem derivCols_keys_nodup (df : DF) (targets : List String) :
    ((derivCols df targets).map Prod.fst).Nodup := by
  unfold derivCols
  have hinit : (((if "EUR" ∈ targets then [("EUR_PLN", Deriv.base)] else []).map
      Prod.fst)).Nodup := by
    by_cases h : "EUR" ∈ targets <;> simp [h]
  generalize (if "EUR" ∈ targets then [("EUR_PLN", Deriv.base)] else []) = init at hinit ⊢
  induction targets generalizing init with
  | nil => exact hinit
  | cons ccy rest ih =>
    rw [List.foldl_cons]
    exact ih _ (derivStep_keys_nodup df ccy hinit)

theorem foldl_derivStep_mem (df : DF) (rest : List String) {c : String}
    (hne : c ≠ "EUR") (init : List (String × Deriv))
    (hm : (c ++ "_PLN", Deriv.ratio c) ∈ init) :
    (c ++ "_PLN", Deriv.ratio c) ∈ rest.foldl (derivStep df) init := by
  induction rest generalizing init with
  | nil => exact hm
  | cons ccy rest2 ih =>
    rw [List.foldl_cons]
    apply ih
    unfold derivStep
    by_cases h1 : ccy = "EUR"
    · rw [if_pos h1]; exact hm
    · rw [if_neg h1]
      by_cases h2 : decide (ccy ∈ df.cols) = true
      · rw [if_pos h2]
        by_cases hcc : ccy = c
        · subst hcc
          exact upsertCol_mem_self _ _
        · exact upsertCol_mem_of_ne hm _ fun h => hcc (string_append_cancel h)
      · rw [if_neg h2]; exact hm

theorem derivCols_mem_ratio (df : DF) (targets : List String) {c : String}
    (hc : c ∈ targets) (hne : c ≠ "EUR") (hcol : c ∈ df.cols) :
    (c ++ "_PLN", Deriv.ratio c) ∈ derivCols df targets := by
  unfold derivCols
  generalize (if "EUR" ∈ targets then [("EUR_PLN", Deriv.base)] else []) = init
  induction targets generalizing init with
  | nil => simp at hc
  | cons ccy rest ih =>
    rw [List.foldl_cons]
    rcases List.mem_cons.1 hc with hceq | hcrest
    · subst hceq
      apply foldl_derivStep_mem df rest hne
      unfold derivStep
      rw [if_neg hne, if_pos (decide_eq_true hcol)]
      exact upsertCol_mem_self _ _
    · exact ih hcrest _

theorem getCell_map_deriv {dcols : List (String × Deriv)} {n : String} {dv : Deriv}
    (hn : (dcols.map Prod.fst).Nodup) (hm : (n, dv) ∈ dcols) (cells : Row) :
    getCell (dcols.map fun p => (p.1, plnCell cells p.2)) n = plnCell cells dv := by
  induction dcols with
  | nil => simp at hm
  | cons q rest ih =>
    obtain ⟨n0, dv0⟩ := q
    simp only [List.map_cons, List.nodup_cons] at hn
    rcases List.mem_cons.1 hm with heq | hm2
    · rw [Prod.mk.injEq] at heq
      obtain ⟨h1, h2⟩ := heq
      subst h1; subst h2
      simp [getCell]
    · have hneq : n0 ≠ n := by
        intro he
        subst he
        exact hn.1 (List.mem_map.2 ⟨(n0, dv), hm2, rfl⟩)
      simp only [List.map_cons, getCell, if_neg hneq]
      exact ih hn.2 hm2

theorem mem_unique_of_nodup_keys {rows : List (Date × Row)} {d : Date} {x y : Row}
    (hnd : (rows.map Prod.fst).Nodup) (hx : (d, x) ∈ rows) (hy : (d, y) ∈ rows) :
    x = y := by
  have h1 := findRow_eq_some_of_mem hnd hx
  have h2 := findRow_eq_some_of_mem hnd hy
  rw [h1] at h2
  exact Option.some.inj h2

/-- The single derived cell in full generality: for a non-EUR target with
a base column, the `<CCY>_PLN` cell of the output at any date is exactly
the float quotient of the PLN cell by the target's cell (missing dates and
dropped rows both yield missing on both sides). -/
theorem compute_cell (df : DF) (targets : List String) {out : DF}
    (hnd : (df.rows.map Prod.fst).Nodup)
    {c : String} (hc : c ∈ targets) (hne : c ≠ "EUR") (hcol : c ∈ df.cols)
    (hok : compute_pln_rates df targets = some out) (d : Date) :
    out.cell d (c ++ "_PLN") = PVal.div (df.cell d "PLN") (df.cell d c) := by
  by_cases hp : "PLN" ∈ df.cols
  case neg =>
    unfold compute_pln_rates at hok
    rw [if_neg hp] at hok
    exact Option.noConfusion hok
  unfold compute_pln_rates at hok
  rw [if_pos hp] at hok
  have hout := (Option.some.inj hok).symm
  clear hok
  set dcols := derivCols df targets with hdcols
  set derived := df.rows.map fun r => (r.1, dcols.map fun p => (p.1, plnCell r.2 p.2))
    with hderived
  set kept := derived.filter fun r => r.2.any fun cv => !cv.2.isna with hkept
  have hdates : derived.map Prod.fst = df.rows.map Prod.fst := by
    rw [hderived, List.map_map]
    apply List.map_congr_left
    intro r _
    rfl
  have hndD : (derived.map Prod.fst).Nodup := by rw [hdates]; exact hnd
  have hndK : (kept.map Prod.fst).Nodup :=
    ((List.filter_sublist derived).map Prod.fst).nodup hndD
  have hcellout : ∀ x, findRow kept d = x → findRow out.rows d = x := by
    intro x hx
    rw [hout]
    rw [findRow_congr_perm (sortByDate_perm kept)
      ((((sortByDate_perm kept).map Prod.fst).nodup_iff).2 hndK) d]
    exact hx
  rcases hfr : findRow df.rows d with _ | cells
  · have hdd : d ∉ df.rows.map Prod.fst := (findRow_eq_none_iff _ _).1 hfr
    have hdk : d ∉ kept.map Prod.fst := by
      intro hmem
      apply hdd
      rw [← hdates]
      exact ((List.filter_sublist derived).map Prod.fst).subset hmem
    rw [cell_of_findRow_none (hcellout none ((findRow_eq_none_iff _ _).2 hdk)) _,
      cell_of_findRow_none hfr "PLN", cell_of_findRow_none hfr c]
    rfl
  · have hrmem : (d, cells) ∈ df.rows := findRow_mem hfr
    have hdmem : (d, dcols.map fun p => (p.1, plnCell cells p.2)) ∈ derived := by
      rw [hderived]
      exact List.mem_map_of_mem _ hrmem
    set dcells := dcols.map fun p => (p.1, plnCell cells p.2) with hdcells
    have hratio : (c ++ "_PLN", Deriv.ratio c) ∈ dcols :=
      derivCols_mem_ratio df targets hc hne hcol
    have hget : getCell dcells (c ++ "_PLN") = plnCell cells (Deriv.ratio c) :=
      getCell_map_deriv (derivCols_keys_nodup df targets) hratio cells
    have hrhs : PVal.div (df.cell d "PLN") (df.cell d c) =
        plnCell cells (Deriv.ratio c) := by
      rw [cell_of_findRow hfr, cell_of_findRow hfr]
      rfl
    by_cases hkeep : (dcells.any fun cv => !cv.2.isna) = true
    · have hkm : (d, dcells) ∈ kept := by
        rw [hkept]
        exact List.mem_filter.2 ⟨hdmem, hkeep⟩
      rw [cell_of_findRow (hcellout _ (findRow_eq_some_of_mem hndK hkm)) _, hget, hrhs]
    · have hdk : d ∉ kept.map Prod.fst := by
        intro hmem
        obtain ⟨r, hrk, hrfst⟩ := List.mem_map.1 hmem
        obtain ⟨e, x⟩ := r
        have he : e = d := hrfst
        subst he
        have hrD : (e, x) ∈ derived := (List.mem_filter.1 hrk).1
        have hxeq : x = dcells := mem_unique_of_nodup_keys hndD hrD hdmem
        subst hxeq
        exact hkeep (List.mem_filter.1 hrk).2
      have hall : (plnCell cells (Deriv.ratio c)).isna = true := by
        have hmemcell : (c ++ "_PLN", plnCell cells (Deriv.ratio c)) ∈ dcells := by
          rw [hdcells]
          exact List.mem_map.2 ⟨(c ++ "_PLN", Deriv.ratio c), hratio, rfl⟩
        by_contra hno
        exact hkeep (List.any_eq_true.2 ⟨_, hmemcell, by simpa using hno⟩)
      rw [cell_of_findRow_none (hcellout none ((findRow_eq_none_iff _ _).2 hdk)) _, hrhs]
      exact ((PVal.isna_true_iff _).1 hall).symm

/-! ### Outcome analysis of the daily merge, and invariant preservation -/

theorem upsert_daily_row_nil {history today_row : DF} (h : today_row.rows = []) :
    upsert_daily_row history today_row = some history := by
  unfold upsert_daily_row
  rw [h]

theorem upsert_daily_row_cons {history today_row : DF} {d : Date} {cells : Row}
    {rest : List (Date × Row)} (h : today_row.rows = (d, cells) :: rest) :
    upsert_daily_row history today_row =
      (if (findRow history.rows d).isSome then some history
       else if history.cols.all fun c => decide (c ∈ today_row.cols) then
         some { cols := grownCols history.cols today_row.cols,
                rows := sortByDate
                  ((history.rows.map fun r =>
                     (r.1, reindexRow (grownCols history.cols today_row.cols) r.2)) ++
                   (((d, cells) :: rest).map fun r =>
                     (r.1, reindexRow (grownCols history.cols today_row.cols) r.2))) }
       else none) := by
  unfold upsert_daily_row
  rw [h]

/-- Every successful daily merge either returns the history untouched
(empty daily frame, or date already present) or inserts the daily rows
into the reindexed history and sorts. -/
theorem daily_cases {history today_row res : DF}
    (hres : upsert_daily_row history today_row = some res) :
    res = history ∨
    ((∃ d cells rest, today_row.rows = (d, cells) :: rest ∧
        findRow history.rows d = none) ∧
      res.cols = grownCols history.cols today_row.cols ∧
      res.rows = sortByDate
        ((history.rows.map fun r =>
            (r.1, reindexRow (grownCols history.cols today_row.cols) r.2)) ++
          (today_row.rows.map fun r =>
            (r.1, reindexRow (grownCols history.cols today_row.cols) r.2)))) := by
  rcases hrows : today_row.rows with _ | ⟨⟨d, cells⟩, rest⟩
  · rw [upsert_daily_row_nil hrows] at hres
    exact Or.inl (Option.some.inj hres).symm
  · rw [upsert_daily_row_cons hrows] at hres
    by_cases hf : (findRow history.rows d).isSome = true
    · rw [if_pos hf] at hres
      exact Or.inl (Option.some.inj hres).symm
    · rw [if_neg hf] at hres
      by_cases hall : (history.cols.all fun c => decide (c ∈ today_row.cols)) = true
      · rw [if_pos hall] at hres
        have hr := (Option.some.inj hres).symm
        refine Or.inr ⟨⟨d, cells, rest, rfl, ?_⟩, ?_, ?_⟩
        · rw [Option.not_isSome_iff_eq_none] at hf
          exact hf
        · rw [hr]
        · rw [hr]
      · rw [if_neg hall] at hres
        exact Option.noConfusion hres

theorem daily_preserves_nodup {history today_row res : DF}
    (hres : upsert_daily_row history today_row = some res)
    (hlen : today_row.rows.length ≤ 1)
    (hnd : (history.rows.map Prod.fst).Nodup) :
    (res.rows.map Prod.fst).Nodup := by
  rcases daily_cases hres with heq | ⟨⟨d, cells, rest, hrows, hfr⟩, _, hrws⟩
  · rw [heq]; exact hnd
  · have hrest : rest = [] := by
      rw [hrows] at hlen
      cases rest with
      | nil => rfl
      | cons a l => simp at hlen
    subst hrest
    rw [hrws]
    apply (((sortByDate_perm _).map Prod.fst).nodup_iff).2
    rw [List.map_append, dates_aligned, dates_aligned, hrows]
    rw [List.nodup_append]
    refine ⟨hnd, by simp, fun a ha ha2 => ?_⟩
    have had : a = d := by simpa using ha2
    subst had
    exact (findRow_eq_none_iff history.rows a).1 hfr ha

theorem batch_preserves_nodup (hist last90 : DF)
    (hh : (hist.rows.map Prod.fst).Nodup) (hb : (last90.rows.map Prod.fst).Nodup) :
    ((upsert_90d_into_history hist last90).rows.map Prod.fst).Nodup := by
  unfold upsert_90d_into_history
  by_cases hemp : hist.rows.isEmpty = true
  · rw [if_pos hemp]; exact hb
  · rw [if_neg hemp]
    by_cases hm : (missingRows hist last90).isEmpty = true
    · rw [if_pos hm]
      apply (((sortByDate_perm _).map Prod.fst).nodup_iff).2
      rw [dates_updatedRows]
      exact hh
    · rw [if_neg hm]
      apply (((sortByDate_perm _).map Prod.fst).nodup_iff).2
      rw [dates_aligned, List.map_append, dates_updatedRows]
      exact hist_missing_dates_nodup hist last90 hh hb

/-- Every nonempty-history batch merge ends in `sort_index()`, so the
result rows are sorted by date. -/
theorem batch_result_sorted (hist last90 : DF) (hne : hist.rows.isEmpty = false) :
    List.Pairwise rowLE (upsert_90d_into_history hist last90).rows := by
  unfold upsert_90d_into_history
  rw [hne]
  simp only [Bool.false_eq_true, if_false]
  by_cases hm : (missingRows hist last90).isEmpty = true
  · rw [if_pos hm]
    exact sortByDate_sorted _
  · rw [if_neg hm]
    exact sortByDate_sorted _

/-! ### Idempotence machinery for the batch merge -/

theorem updateCells_idem (brow cells : Row) :
    updateCells brow (updateCells brow cells) = updateCells brow cells := by
  unfold updateCells
  rw [List.map_map]
  apply List.map_congr_left
  intro kv _
  simp only [Function.comp_apply]
  by_cases hna : (getCell brow kv.1).isna = true
  · rw [if_pos hna, if_pos hna]
  · rw [if_neg hna]
    rw [if_neg (by simpa using hna)]

theorem updateCells_reindex_of_keys {brow cells : Row} {cols : List String}
    (hk : ∀ c ∈ cols, c ∈ cells.map Prod.fst) :
    updateCells brow (reindexRow cols (updateCells brow cells)) =
      reindexRow cols (updateCells brow cells) := by
  unfold updateCells reindexRow
  rw [List.map_map]
  apply List.map_congr_left
  intro c hc
  simp only [Function.comp_apply]
  by_cases hna : (getCell brow c).isna = true
  · rw [if_pos hna]
  · rw [if_neg hna]
    show (c, getCell brow c) =
      (c, getCell (updateCells brow cells) c)
    rw [getCell_updateCells, if_pos (hk c hc), if_neg hna]

theorem updateCells_reindex_self (brow : Row) (cols : List String) :
    updateCells brow (reindexRow cols brow) = reindexRow cols brow := by
  unfold updateCells reindexRow
  rw [List.map_map]
  apply List.map_congr_left
  intro c hc
  simp only [Function.comp_apply]
  by_cases hna : (getCell brow c).isna = true
  · rw [if_pos hna]
  · rw [if_neg hna]

theorem sortByDate_length (rows : List (Date × Row)) :
    (sortByDate rows).length = rows.length :=
  (sortByDate_perm rows).length_eq

theorem isEmpty_false_iff (l : List (Date × Row)) : l.isEmpty = false ↔ l ≠ [] := by
  cases l <;> simp

/-- Re-merging the same batch is the identity, provided the history is
nonempty and already owns every currency column of the batch (without the
column condition the two merges differ, see the C3 counterexample). -/
theorem upsert_90d_idempotent (hist last90 : DF) (hwf : hist.WF) (bwf : last90.WF)
    (hne : hist.rows.isEmpty = false)
    (hsub : ∀ c ∈ last90.cols, c ∈ hist.cols) :
    upsert_90d_into_history (upsert_90d_into_history hist last90) last90 =
      upsert_90d_into_history hist last90 := by
  have hgc : grownCols hist.cols last90.cols = hist.cols := by
    unfold grownCols
    rw [List.filter_eq_nil_iff.2 fun c hcm => by simp [hsub c hcm], List.append_nil]
  set r := upsert_90d_into_history hist last90 with hr
  have hsorted : List.Pairwise rowLE r.rows := by
    rw [hr]
    exact batch_result_sorted hist last90 hne
  have hrne : r.rows.isEmpty = false := by
    rw [hr]
    unfold upsert_90d_into_history
    rw [hne]
    simp only [Bool.false_eq_true, if_false]
    rw [isEmpty_false_iff] at hne
    by_cases hm : (missingRows hist last90).isEmpty = true
    · rw [if_pos hm]
      show (sortByDate (updatedRows hist last90)).isEmpty = false
      rw [isEmpty_false_iff, ← List.length_pos, sortByDate_length]
      unfold updatedRows
      rw [List.length_map, List.length_pos]
      exact hne
    · rw [if_neg hm]
      show (sortByDate ((updatedRows hist last90 ++ missingRows hist last90).map
        fun r2 => (r2.1, reindexRow (grownCols hist.cols last90.cols) r2.2))).isEmpty
          = false
      rw [isEmpty_false_iff, ← List.length_pos, sortByDate_length, List.length_map,
        List.length_append]
      unfold updatedRows
      rw [List.length_map]
      have := List.length_pos.2 hne
      omega
  have hcov : ∀ a ∈ last90.rows, a.1 ∈ r.rows.map Prod.fst := by
    intro a ha
    rw [hr]
    unfold upsert_90d_into_history
    rw [hne]
    simp only [Bool.false_eq_true, if_false]
    by_cases hm : (missingRows hist last90).isEmpty = true
    · rw [if_pos hm]
      show a.1 ∈ (sortByDate (updatedRows hist last90)).map Prod.fst
      rw [((sortByDate_perm _).map Prod.fst).mem_iff, dates_updatedRows]
      have hmnil : missingRows hist last90 = [] := List.isEmpty_iff.1 hm
      have hforall := List.filter_eq_nil_iff.1 hmnil a ha
      by_contra hnm
      have hfn : findRow hist.rows a.1 = none := (findRow_eq_none_iff _ _).2 hnm
      exact hforall (by rw [hfn]; rfl)
    · rw [if_neg hm]
      show a.1 ∈ (sortByDate ((updatedRows hist last90 ++ missingRows hist last90).map
        fun r2 => (r2.1, reindexRow (grownCols hist.cols last90.cols) r2.2))).map
          Prod.fst
      rw [((sortByDate_perm _).map Prod.fst).mem_iff, dates_aligned, List.map_append,
        dates_updatedRows]
      by_cases hfa : (findRow hist.rows a.1).isNone = true
      · exact List.mem_append_right _
          (List.mem_map.2 ⟨a, List.mem_filter.2 ⟨ha, hfa⟩, rfl⟩)
      · refine List.mem_append_left _ ?_
        by_contra hnm
        exact hfa (by rw [(findRow_eq_none_iff _ _).2 hnm]; rfl)
  have hmiss2 : missingRows r last90 = [] := by
    unfold missingRows
    rw [List.filter_eq_nil_iff]
    intro a ha hisNone
    rw [Option.isNone_iff_eq_none] at hisNone
    exact (findRow_eq_none_iff _ _).1 hisNone (hcov a ha)
  have hfix : ∀ row ∈ r.rows,
      (match findRow last90.rows row.1 with
        | none => row
        | some brow => (row.1, updateCells brow row.2)) = row := by
    intro row hrow
    rw [hr] at hrow
    revert hrow
    unfold upsert_90d_into_history
    rw [hne]
    simp only [Bool.false_eq_true, if_false]
    by_cases hm : (missingRows hist last90).isEmpty = true
    · rw [if_pos hm]
      intro hrow
      have hrow2 : row ∈ updatedRows hist last90 :=
        (sortByDate_perm _).mem_iff.1 hrow
      obtain ⟨r0, hr0, heq0⟩ := List.mem_map.1 hrow2
      rcases hfb : findRow last90.rows r0.1 with _ | brow
      · have heq2 : r0 = row := by rw [hfb] at heq0; exact heq0
        have hrow1 : row.1 = r0.1 := by rw [← heq2]
        rw [hrow1, hfb]
      · have heq2 : (r0.1, updateCells brow r0.2) = row := by
          rw [hfb] at heq0; exact heq0
        have hrow1 : row.1 = r0.1 := by rw [← heq2]
        rw [hrow1, hfb]
        show (r0.1, updateCells brow row.2) = row
        rw [← heq2]
        show (r0.1, updateCells brow (updateCells brow r0.2)) =
          (r0.1, updateCells brow r0.2)
        exact congrArg (Prod.mk r0.1) (updateCells_idem brow r0.2)
    · rw [if_neg hm]
      intro hrow
      have hrow2 : row ∈ (updatedRows hist last90 ++ missingRows hist last90).map
          fun r2 => (r2.1, reindexRow (grownCols hist.cols last90.cols) r2.2) :=
        (sortByDate_perm _).mem_iff.1 hrow
      obtain ⟨r1, hr1, heq⟩ := List.mem_map.1 hrow2
      rcases List.mem_append.1 hr1 with hrU | hrM
      · obtain ⟨r0, hr0, heq0⟩ := List.mem_map.1 hrU
        rcases hfb : findRow last90.rows r0.1 with _ | brow
        · have heq02 : r0 = r1 := by rw [hfb] at heq0; exact heq0
          have heq2 : (r0.1, reindexRow (grownCols hist.cols last90.cols) r0.2)
              = row := by rw [← heq, ← heq02]
          have hrow1 : row.1 = r0.1 := by rw [← heq2]
          rw [hrow1, hfb]
        · have heq02 : (r0.1, updateCells brow r0.2) = r1 := by
            rw [hfb] at heq0; exact heq0
          have heq2 : (r0.1, reindexRow (grownCols hist.cols last90.cols)
              (updateCells brow r0.2)) = row := by rw [← heq, ← heq02]
          have hrow1 : row.1 = r0.1 := by rw [← heq2]
          rw [hrow1, hfb]
          show (r0.1, updateCells brow row.2) = row
          rw [← heq2]
          show (r0.1, updateCells brow (reindexRow (grownCols hist.cols last90.cols)
              (updateCells brow r0.2))) =
            (r0.1, reindexRow (grownCols hist.cols last90.cols)
              (updateCells brow r0.2))
          refine congrArg (Prod.mk r0.1) (updateCells_reindex_of_keys ?_)
          intro c hc
          rw [hgc] at hc
          rw [hwf.2.2 r0 hr0]
          exact hc
      · have hr1b : (r1.1, r1.2) ∈ last90.rows := (List.mem_filter.1 hrM).1
        have hfb2 : findRow last90.rows r1.1 = some r1.2 :=
          findRow_eq_some_of_mem bwf.1 hr1b
        have heq2 : (r1.1, reindexRow (grownCols hist.cols last90.cols) r1.2)
            = row := by rw [← heq]
        have hrow1 : row.1 = r1.1 := by rw [← heq2]
        rw [hrow1, hfb2]
        show (r1.1, updateCells r1.2 row.2) = row
        rw [← heq2]
        show (r1.1, updateCells r1.2 (reindexRow (grownCols hist.cols last90.cols)
            r1.2)) =
          (r1.1, reindexRow (grownCols hist.cols last90.cols) r1.2)
        exact congrArg (Prod.mk r1.1)
          (updateCells_reindex_self r1.2 (grownCols hist.cols last90.cols))
  have hupd : updatedRows r last90 = r.rows := by
    unfold updatedRows
    refine Eq.trans (List.map_congr_left fun row hrow => ?_) (List.map_id' r.rows)
    exact hfix row hrow
  unfold upsert_90d_into_history
  rw [hrne]
  simp only [Bool.false_eq_true, if_false]
  rw [if_pos (show (missingRows r last90).isEmpty = true by rw [hmiss2]; rfl)]
  show DF.mk r.cols (sortByDate (updatedRows r last90)) = r
  rw [hupd, sortByDate_eq_self hsorted]

theorem PVal.div_na_right (x : PVal) : PVal.div x PVal.na = PVal.na := by
  cases x <;> rfl

theorem findRow_sortByDate {rows : List (Date × Row)} {d : Date} {cells : Row}
    (hnd : (rows.map Prod.fst).Nodup) (hmem : (d, cells) ∈ rows) :
    findRow (sortByDate rows) d = some cells := by
  rw [findRow_congr_perm (sortByDate_perm rows)
    ((((sortByDate_perm rows).map Prod.fst).nodup_iff).2 hnd) d]
  exact findRow_eq_some_of_mem hnd hmem

theorem nodup_of_pairwise_lt {l : List Date} (h : List.Pairwise (· < ·) l) :
    l.Nodup :=
  h.imp fun hab => Nat.ne_of_lt hab

/-- The insert branch of the daily merge, spelled out. -/
theorem daily_insert_eq {history today_row : DF} {d : Date} {cells : Row}
    (hrows : today_row.rows = [(d, cells)])
    (hfd : findRow history.rows d = none)
    (hall : (history.cols.all fun c => decide (c ∈ today_row.cols)) = true) :
    upsert_daily_row history today_row = some
      (DF.mk (grownCols history.cols today_row.cols)
        (sortByDate ((history.rows.map fun r =>
            (r.1, reindexRow (grownCols history.cols today_row.cols) r.2)) ++
          [(d, reindexRow (grownCols history.cols today_row.cols) cells)]))) := by
  rw [upsert_daily_row_cons hrows, if_neg (by rw [hfd]; simp), if_pos hall]
  rfl

/-! ### The claims -/

/-- Claim C1, counterexample: the batch holds `GBP = 2` for date 1 (a
non-missing value, for a currency the history does not know), date 1 is a
row of both tables, yet the merged cell at (1, GBP) is not 2 — pandas
`update` drops batch columns that are absent from the history, so the
claim's "including values for currencies not yet existing as columns of
the history" fails. -/
theorem C1_counterexample :
    (1 : Date) ∈ c1Hist.rows.map Prod.fst ∧
    (1 : Date) ∈ c1Batch.rows.map Prod.fst ∧
    "GBP" ∈ c1Batch.cols ∧ (c1Batch.cell 1 "GBP").isna = false ∧
    c1Batch.cell 1 "GBP" = PVal.fin (mkRat 2 1) ∧
    (upsert_90d_into_history c1Hist c1Batch).cell 1 "GBP" ≠ PVal.fin (mkRat 2 1) := by
  decide

/-- Claim C1, amended: for a date present in both the history and the
batch, every non-missing batch value *of a currency already present as a
column of the history* overwrites the result cell, and every history
currency absent from the observation (column not in the batch, or batch
cell missing) keeps its previous value; batch values for currencies
outside the history's schema are not applied to that row. -/
theorem C1_theorem (hist last90 : DF) (hwf : hist.WF) (bwf : last90.WF)
    (d : Date) (hd : d ∈ hist.rows.map Prod.fst)
    (hbd : d ∈ last90.rows.map Prod.fst) (c : String) :
    (c ∈ hist.cols → c ∈ last90.cols → (last90.cell d c).isna = false →
      (upsert_90d_into_history hist last90).cell d c = last90.cell d c) ∧
    (c ∈ hist.cols → (c ∉ last90.cols ∨ (last90.cell d c).isna = true) →
      (upsert_90d_into_history hist last90).cell d c = hist.cell d c) := by
  obtain ⟨rb, hrb, hfstb⟩ := List.mem_map.1 hbd
  obtain ⟨e, brow⟩ := rb
  have he : e = d := hfstb
  subst he
  have hfb : findRow last90.rows e = some brow := findRow_eq_some_of_mem bwf.1 hrb
  have hbcell : last90.cell e c = getCell brow c := cell_of_findRow hfb c
  constructor
  · intro hc hcb hna
    rw [merge_cell_mem hist last90 hwf bwf.1 hd hc, hfb]
    show (if (getCell brow c).isna = true then hist.cell e c else getCell brow c)
      = last90.cell e c
    rw [hbcell] at hna
    rw [if_neg (by simp [hna]), hbcell]
  · intro hc habs
    rw [merge_cell_mem hist last90 hwf bwf.1 hd hc, hfb]
    show (if (getCell brow c).isna = true then hist.cell e c else getCell brow c)
      = hist.cell e c
    have hna : (getCell brow c).isna = true := by
      rcases habs with hnotin | hna2
      · have hkeys : brow.map Prod.fst = last90.cols := bwf.2.2 _ hrb
        rw [getCell_eq_na_of_not_mem (by rw [hkeys]; exact hnotin)]
        rfl
      · rw [hbcell] at hna2
        exact hna2
    rw [if_pos hna]

/-- Claim C1, witness: on a two-currency history row and a USD-only batch
observation for the same date, the merge takes the batch's USD value. -/
theorem C1_witness :
    (upsert_90d_into_history c1wHist c1wBatch).cell 1 "USD" =
      c1wBatch.cell 1 "USD" :=
  (C1_theorem c1wHist c1wBatch (by decide) (by decide) 1 (by decide) (by decide)
    "USD").1 (by decide) (by decide) (by decide)

/-- Claim C2, counterexample: with `PLN = 4.35` and a zero `USD`
denominator on a date, the derived `USD_PLN` cell is positive infinity —
the row is kept and the cell is not missing, contradicting "zero
denominator yields a missing value". -/
theorem C2_counterexample :
    c2Df.cell 0 "USD" = PVal.fin 0 ∧
    compute_pln_rates c2Df ["USD"] = some c2Out ∧
    c2Out.cell 0 "USD_PLN" = PVal.pinf ∧
    (c2Out.cell 0 "USD_PLN").isna = false := by
  decide

/-- Claim C2, amended: each derived `<CCY>_PLN` cell equals the float
quotient of the PLN cell by that target's cell — so a missing denominator
yields a missing cell, while a zero denominator yields a missing cell
(when the numerator is zero or missing) or an infinite cell (when it is
not), never an error and never a value leaking into any other column. -/
theorem C2_theorem (df : DF) (targets : List String) (out : DF)
    (hnd : (df.rows.map Prod.fst).Nodup)
    (c : String) (hc : c ∈ targets) (hne2 : c ≠ "EUR") (hcol : c ∈ df.cols)
    (hok : compute_pln_rates df targets = some out) (d : Date) :
    out.cell d (c ++ "_PLN") = PVal.div (df.cell d "PLN") (df.cell d c) ∧
    ((df.cell d c).isna = true → out.cell d (c ++ "_PLN") = PVal.na) ∧
    (df.cell d c = PVal.fin 0 →
      out.cell d (c ++ "_PLN") = PVal.na ∨ out.cell d (c ++ "_PLN") = PVal.pinf ∨
        out.cell d (c ++ "_PLN") = PVal.ninf) := by
  have hmain := compute_cell df targets hnd hc hne2 hcol hok d
  refine ⟨hmain, ?_, ?_⟩
  · intro hna
    rw [hmain, (PVal.isna_true_iff _).1 hna, PVal.div_na_right]
  · intro hzero
    rw [hmain, hzero]
    rcases hP : df.cell d "PLN" with _ | q | _ | _
    · exact Or.inl rfl
    · by_cases hq : q = 0
      · subst hq
        left
        decide
      · by_cases hpos : 0 < q
        · right; left
          show (if (0 : ℚ) = 0 then
              (if q = 0 then PVal.na else if 0 < q then PVal.pinf else PVal.ninf)
            else PVal.fin (ratDiv q 0)) = PVal.pinf
          rw [if_pos rfl, if_neg hq, if_pos hpos]
        · right; right
          show (if (0 : ℚ) = 0 then
              (if q = 0 then PVal.na else if 0 < q then PVal.pinf else PVal.ninf)
            else PVal.fin (ratDiv q 0)) = PVal.ninf
          rw [if_pos rfl, if_neg hq, if_neg hpos]
    · right; left
      show (if (0 : ℚ) ≤ 0 then PVal.pinf else PVal.ninf) = PVal.pinf
      rw [if_pos le_rfl]
    · right; right
      show (if (0 : ℚ) ≤ 0 then PVal.ninf else PVal.pinf) = PVal.ninf
      rw [if_pos le_rfl]

/-- Claim C2, witness: the amended statement evaluated on the concrete
zero-denominator table. -/
theorem C2_witness :
    c2Out.cell 0 "USD_PLN" = PVal.div (c2Df.cell 0 "PLN") (c2Df.cell 0 "USD") :=
  (C2_theorem c2Df ["USD"] c2Out (by decide) "USD" (by decide) (by decide)
    (by decide) (by decide) 0).1

/-- Claim C3, counterexample: the batch introduces a new currency `GBP`
together with a new date 2; the first merge widens the schema but leaves
(1, GBP) missing (update ignores unknown columns), while the second merge
fills it with the batch's value — so merging twice differs from merging
once. -/
theorem C3_counterexample :
    upsert_90d_into_history (upsert_90d_into_history c3Hist c3Batch) c3Batch ≠
      upsert_90d_into_history c3Hist c3Batch := by
  decide

/-- Claim C3, amended: merging the same batch twice equals merging it
once, for a well-formed nonempty history and well-formed batch all of
whose currency columns already exist in the history (the restriction the
counterexample forces: a batch that introduces a new currency column is
not re-merge idempotent). No duplicate rows arise and unmentioned values
are preserved in that setting. -/
theorem C3_theorem (hist last90 : DF) (hwf : hist.WF) (bwf : last90.WF)
    (hne : hist.rows ≠ [])
    (hsub : ∀ c ∈ last90.cols, c ∈ hist.cols) :
    upsert_90d_into_history (upsert_90d_into_history hist last90) last90 =
      upsert_90d_into_history hist last90 :=
  upsert_90d_idempotent hist last90 hwf bwf ((isEmpty_false_iff _).2 hne) hsub

/-- Claim C3, witness: a same-schema batch over an existing history
re-merges to the identical table. -/
theorem C3_witness :
    upsert_90d_into_history (upsert_90d_into_history c3wHist c3wBatch) c3wBatch =
      upsert_90d_into_history c3wHist c3wBatch :=
  C3_theorem c3wHist c3wBatch (by decide) (by decide) (by decide) (by decide)

/-- Claim C5, confirmed: a single-day observation whose date already
exists in the history leaves the history exactly unchanged — the daily
path returns before any write. -/
theorem C5_theorem (history today_row : DF) (d : Date) (cells : Row)
    (hrows : today_row.rows = [(d, cells)])
    (hd : d ∈ history.rows.map Prod.fst) :
    upsert_daily_row history today_row = some history := by
  rw [upsert_daily_row_cons hrows, if_pos ((findRow_isSome_iff _ _).2 hd)]

/-- Claim C5, witness: submitting a different USD value for an existing
date leaves the stored row (USD = 4) untouched. -/
theorem C5_witness : upsert_daily_row c5Hist c5Obs = some c5Hist :=
  C5_theorem c5Hist c5Obs 20240105 [("USD", PVal.fin (mkRat 5 1))] (by decide) (by decide)

/-- Claim C9, confirmed: the deriver fails (producing no series) exactly
when the domestic PLN column is absent from the history; with the column
present it always succeeds. -/
theorem C9_theorem (df : DF) (targets : List String) :
    compute_pln_rates df targets = none ↔ "PLN" ∉ df.cols := by
  unfold compute_pln_rates
  by_cases hp : "PLN" ∈ df.cols
  · rw [if_pos hp]
    simp [hp]
  · rw [if_neg hp]
    simp [hp]

/-- Claim C10, confirmed: a missing (NaN) batch cell never overwrites a
recorded history value in the batch merge. -/
theorem C10_theorem (hist last90 : DF) (hwf : hist.WF) (bwf : last90.WF)
    (d : Date) (hd : d ∈ hist.rows.map Prod.fst)
    (hbd : d ∈ last90.rows.map Prod.fst)
    (c : String) (hc : c ∈ hist.cols) (_hcb : c ∈ last90.cols)
    (hbna : last90.cell d c = PVal.na) (_hrec : (hist.cell d c).isna = false) :
    (upsert_90d_into_history hist last90).cell d c = hist.cell d c := by
  obtain ⟨rb, hrb, hfstb⟩ := List.mem_map.1 hbd
  obtain ⟨e, brow⟩ := rb
  have he : e = d := hfstb
  subst he
  have hfb : findRow last90.rows e = some brow := findRow_eq_some_of_mem bwf.1 hrb
  have hbcell : last90.cell e c = getCell brow c := cell_of_findRow hfb c
  rw [merge_cell_mem hist last90 hwf bwf.1 hd hc, hfb]
  show (if (getCell brow c).isna = true then hist.cell e c else getCell brow c)
    = hist.cell e c
  rw [if_pos (by rw [← hbcell, hbna]; rfl)]

/-- Claim C10, witness: a batch carrying USD = 1.1 and GBP = NaN for an
existing date leaves the recorded GBP = 2 in place. -/
theorem C10_witness :
    (upsert_90d_into_history c10Hist c10Batch).cell 1 "GBP" =
      c10Hist.cell 1 "GBP" :=
  C10_theorem c10Hist c10Batch (by decide) (by decide) 1 (by decide) (by decide)
    "GBP" (by decide) (by decide) (by decide) (by decide)

/-- Claim C4, counterexample: on the scenario's exact inputs the EUR-only
run produces one output row (not zero) and the two-target run produces an
`EUR_PLN` column next to `USD_PLN` (not "only the USD cross-rate
column") — the code derives `EUR_PLN` from the PLN base column without
requiring an `EUR` column. -/
theorem C4_counterexample :
    upsert_daily_row c4Empty c4Obs = some c4Hist ∧
    (compute_pln_rates c4Hist ["EUR"]).map (fun o => o.rows.length) = some 1 ∧
    (compute_pln_rates c4Hist ["EUR", "USD"]).map DF.cols =
      some ["EUR_PLN", "USD_PLN"] := by
  decide

/-- Claim C4, amended: empty history plus the observation
{date 2024-01-02, PLN 4.35, USD 1.10}, derived with targets [EUR, USD],
gives one row for 2024-01-02 with USD_PLN = 4.35/1.10 *and*
EUR_PLN = 4.35 — the EUR target is not skipped, because its cross rate is
read from the PLN base column; with EUR as the only target the output is
one row carrying just EUR_PLN. -/
theorem C4_theorem :
    upsert_daily_row c4Empty c4Obs = some c4Hist ∧
    compute_pln_rates c4Hist ["EUR", "USD"] = some
      (DF.mk ["EUR_PLN", "USD_PLN"]
        [(20240102, [("EUR_PLN", PVal.fin (mkRat 87 20)),
                     ("USD_PLN", PVal.fin (mkRat 87 22))])]) ∧
    compute_pln_rates c4Hist ["EUR"] = some
      (DF.mk ["EUR_PLN"] [(20240102, [("EUR_PLN", PVal.fin (mkRat 87 20))])]) ∧
    (mkRat 87 20 : ℚ) = (4.35 : ℚ) ∧
    (mkRat 87 22 : ℚ) = (4.35 : ℚ) / (1.10 : ℚ) := by
  refine ⟨by decide, by decide, by decide, ?_, ?_⟩
  · rw [Rat.mkRat_eq_divInt, Rat.divInt_eq_div]
    norm_num
  · rw [Rat.mkRat_eq_divInt, Rat.divInt_eq_div]
    norm_num

/-- Claim C6, counterexample: merging a single observation that carries a
brand-new currency XYZ for a date that already exists in the history does
not add an XYZ column at all — pandas `update` discards unknown columns
and no concat happens when no new date is present. -/
theorem C6_counterexample :
    "XYZ" ∈ c6Obs.cols ∧ "XYZ" ∉ c6Hist.cols ∧
    "XYZ" ∉ (upsert_90d_into_history c6Hist c6Obs).cols := by
  decide

/-- Claim C6, amended: provided the observation's date is not already a
row of the history (and, for the daily merge, the merge succeeds), merging
a single observation that introduces an unseen currency XYZ adds an XYZ
column, marks XYZ missing on every pre-existing row, and leaves every
other column of every pre-existing row unchanged; when the date already
exists, the batch merge drops the new column entirely. -/
theorem C6_theorem (hist : DF) (op : MergeOp) (res : DF) (hwf : hist.WF)
    (d : Date) (cells : Row) (hobs : op.obs.rows = [(d, cells)])
    (c : String) (hc : c ∈ op.obs.cols) (hcn : c ∉ hist.cols)
    (hd : d ∉ hist.rows.map Prod.fst)
    (hres : applyOp hist op = some res) :
    c ∈ res.cols ∧ ∀ r ∈ hist.rows,
      res.cell r.1 c = PVal.na ∧
      ∀ c2 ∈ hist.cols, res.cell r.1 c2 = hist.cell r.1 c2 := by
  cases op with
  | daily o =>
    have hobs2 : o.rows = [(d, cells)] := hobs
    have hc2 : c ∈ o.cols := hc
    have hfd : findRow hist.rows d = none := (findRow_eq_none_iff _ _).2 hd
    have hres0 : upsert_daily_row hist o = some res := hres
    by_cases hall : (hist.cols.all fun c3 => decide (c3 ∈ o.cols)) = true
    case neg =>
      rw [upsert_daily_row_cons hobs2, if_neg (by rw [hfd]; simp),
        if_neg hall] at hres0
      exact Option.noConfusion hres0
    rw [daily_insert_eq hobs2 hfd hall] at hres0
    have hr := (Option.some.inj hres0).symm
    have hcolsr : res.cols = grownCols hist.cols o.cols := by rw [hr]
    have hrowsr : res.rows = sortByDate ((hist.rows.map fun r =>
        (r.1, reindexRow (grownCols hist.cols o.cols) r.2)) ++
      [(d, reindexRow (grownCols hist.cols o.cols) cells)]) := by rw [hr]
    have hcg : c ∈ grownCols hist.cols o.cols := mem_grownCols_new hc2 hcn
    have hdats : ((((hist.rows.map fun r =>
        (r.1, reindexRow (grownCols hist.cols o.cols) r.2)) ++
      [(d, reindexRow (grownCols hist.cols o.cols) cells)])).map Prod.fst).Nodup := by
      rw [List.map_append, dates_aligned]
      simp only [List.map_cons, List.map_nil]
      rw [List.nodup_append]
      refine ⟨hwf.1, List.nodup_singleton _, fun a ha ha2 => ?_⟩
      have haeq : a = d := by simpa using ha2
      exact hd (haeq ▸ ha)
    refine ⟨by rw [hcolsr]; exact hcg, fun r hrmem => ?_⟩
    have hkeys : r.2.map Prod.fst = hist.cols := hwf.2.2 _ hrmem
    have hfound : findRow res.rows r.1 =
        some (reindexRow (grownCols hist.cols o.cols) r.2) := by
      rw [hrowsr]
      exact findRow_sortByDate hdats
        (List.mem_append_left _ (List.mem_map_of_mem _ hrmem))
    constructor
    · rw [cell_of_findRow hfound c, getCell_reindexRow _ hcg]
      exact getCell_eq_na_of_not_mem (by rw [hkeys]; exact hcn)
    · intro c2 hcc2
      rw [cell_of_findRow hfound c2, getCell_reindexRow _ (mem_grownCols_left hcc2),
        cell_of_findRow (findRow_eq_some_of_mem hwf.1 hrmem) c2]
  | batch b =>
    have hobs2 : b.rows = [(d, cells)] := hobs
    have hc2 : c ∈ b.cols := hc
    have hres2 : res = upsert_90d_into_history hist b := (Option.some.inj hres).symm
    have hbnd : (b.rows.map Prod.fst).Nodup := by rw [hobs2]; simp
    constructor
    · rw [hres2]
      unfold upsert_90d_into_history
      by_cases hemp : hist.rows.isEmpty = true
      · rw [if_pos hemp]
        exact hc2
      · rw [if_neg hemp]
        have hmm : (d, cells) ∈ missingRows hist b := by
          unfold missingRows
          rw [hobs2]
          refine List.mem_filter.2 ⟨List.mem_cons_self _ _, ?_⟩
          rw [(findRow_eq_none_iff hist.rows d).2 hd]
          rfl
        rw [if_neg fun hM => by rw [List.isEmpty_iff.1 hM] at hmm; simp at hmm]
        exact mem_grownCols_new hc2 hcn
    · intro r hrmem
      have hrd : r.1 ∈ hist.rows.map Prod.fst := List.mem_map_of_mem _ hrmem
      have hne3 : d ≠ r.1 := fun hde => hd (by rw [hde]; exact hrd)
      have hfb : findRow b.rows r.1 = none := by
        rw [hobs2]
        simp [findRow, hne3]
      constructor
      · rw [hres2]
        exact merge_cell_mem_nocol hist b hwf hbnd hrd hcn hfb
      · intro c2 hcc2
        rw [hres2, merge_cell_mem hist b hwf hbnd hrd hcc2, hfb]

/-- Claim C6, witness: a batch observation for a fresh date carrying the
unseen currency XYZ widens the schema, marks XYZ missing on the old row,
and leaves the old USD value in place. -/
theorem C6_witness :
    "XYZ" ∈ c6wRes.cols ∧
    c6wRes.cell 1 "XYZ" = PVal.na ∧
    c6wRes.cell 1 "USD" = c6wHist.cell 1 "USD" := by
  have h := C6_theorem c6wHist (MergeOp.batch c6wObs) c6wRes (by decide) 2
    c6wCells (by decide) "XYZ" (by decide) (by decide) (by decide) (by decide)
  exact ⟨h.1, (h.2 (1, [("USD", PVal.fin (mkRat 1 1))]) (by decide)).1,
    (h.2 (1, [("USD", PVal.fin (mkRat 1 1))]) (by decide)).2 "USD" (by decide)⟩

/-- Claim C7, confirmed: any sequence of valid merge operations (daily
frames of at most one row, batches with pairwise-distinct dates) applied
to a duplicate-free history yields a dataset with at most one row per
date. -/
theorem C7_theorem (h0 : DF) (ops : List MergeOp) (res : DF)
    (hnd : (h0.rows.map Prod.fst).Nodup)
    (hv : ∀ op ∈ ops, op.valid = true)
    (hres : applySeq h0 ops = some res) :
    (res.rows.map Prod.fst).Nodup := by
  induction ops generalizing h0 with
  | nil =>
    have heq : h0 = res := Option.some.inj hres
    rw [← heq]
    exact hnd
  | cons op rest ih =>
    unfold applySeq at hres
    rcases hap : applyOp h0 op with _ | h1
    · rw [hap] at hres
      exact Option.noConfusion hres
    · rw [hap] at hres
      have hres2 : applySeq h1 rest = some res := hres
      have hnd1 : (h1.rows.map Prod.fst).Nodup := by
        cases op with
        | daily o =>
          have hap2 : upsert_daily_row h0 o = some h1 := hap
          have hlen : o.rows.length ≤ 1 :=
            of_decide_eq_true (hv (MergeOp.daily o) (List.mem_cons_self _ _))
          exact daily_preserves_nodup hap2 hlen hnd
        | batch b =>
          have hb : (b.rows.map Prod.fst).Nodup :=
            of_decide_eq_true (hv (MergeOp.batch b) (List.mem_cons_self _ _))
          have hap2 : h1 = upsert_90d_into_history h0 b :=
            (Option.some.inj hap).symm
          rw [hap2]
          exact batch_preserves_nodup h0 b hnd hb
      exact ih h1 hnd1 (fun op2 hop2 => hv op2 (List.mem_cons_of_mem _ hop2)) hres2

/-- Claim C7, witness: a daily insert into an empty history followed by an
overlapping two-day backfill leaves one row per date. -/
theorem C7_witness : (c7Res.rows.map Prod.fst).Nodup :=
  C7_theorem c7H0 c7Ops c7Res (by decide) (by decide) (by decide)

/-- Claim C8, counterexample: on a duplicate-free but unsorted history,
the daily merge's date-already-present early return hands the history back
without sorting, so the result of a merge call is not strictly ascending
by date. -/
theorem C8_counterexample :
    (c8Hist.rows.map Prod.fst).Nodup ∧
    upsert_daily_row c8Hist c8Obs = some c8Hist ∧
    strictAsc (c8Hist.rows.map Prod.fst) = false := by
  decide

/-- Claim C8, amended: merge calls return strictly date-ascending rows
provided the duplicate-free inputs are themselves already sorted (the
early-return paths — daily date-already-present, daily empty frame, and
batch-into-empty-history — return an input unsorted, which the
counterexample exploits); the deriver returns strictly ascending rows on
any duplicate-free input. -/
theorem C8_theorem :
    (∀ (h : DF) (op : MergeOp) (res : DF),
        strictAsc (h.rows.map Prod.fst) = true → op.ascInput = true →
        applyOp h op = some res → strictAsc (res.rows.map Prod.fst) = true) ∧
    (∀ (df : DF) (targets : List String) (out : DF),
        (df.rows.map Prod.fst).Nodup → compute_pln_rates df targets = some out →
        strictAsc (out.rows.map Prod.fst) = true) := by
  constructor
  · intro h op res hasc hin hap
    rw [strictAsc_iff] at hasc ⊢
    cases op with
    | daily o =>
      have hap2 : upsert_daily_row h o = some res := hap
      have hlen : o.rows.length ≤ 1 := of_decide_eq_true hin
      rcases daily_cases hap2 with heq | ⟨_, _, hrws⟩
      · rw [heq]
        exact hasc
      · have hndres : (res.rows.map Prod.fst).Nodup :=
          daily_preserves_nodup hap2 hlen (nodup_of_pairwise_lt hasc)
        have hsort : List.Pairwise rowLE res.rows := by
          rw [hrws]
          exact sortByDate_sorted _
        exact pairwise_lt_dates hsort hndres
    | batch b =>
      have hres2 : res = upsert_90d_into_history h b := (Option.some.inj hap).symm
      have hbasc : List.Pairwise (· < ·) (b.rows.map Prod.fst) := by
        rw [← strictAsc_iff]
        exact hin
      by_cases hemp : h.rows.isEmpty = true
      · rw [hres2]
        unfold upsert_90d_into_history
        rw [if_pos hemp]
        exact hbasc
      · rw [Bool.not_eq_true] at hemp
        have hndres : (res.rows.map Prod.fst).Nodup := by
          rw [hres2]
          exact batch_preserves_nodup h b (nodup_of_pairwise_lt hasc)
            (nodup_of_pairwise_lt hbasc)
        have hsort : List.Pairwise rowLE res.rows := by
          rw [hres2]
          exact batch_result_sorted h b hemp
        exact pairwise_lt_dates hsort hndres
  · intro df targets out hnd hok
    rw [strictAsc_iff]
    by_cases hp : "PLN" ∈ df.cols
    case neg =>
      unfold compute_pln_rates at hok
      rw [if_neg hp] at hok
      exact Option.noConfusion hok
    unfold compute_pln_rates at hok
    rw [if_pos hp] at hok
    have hout : out = DF.mk ((derivCols df targets).map Prod.fst)
        (sortByDate ((df.rows.map fun r =>
          (r.1, (derivCols df targets).map fun p => (p.1, plnCell r.2 p.2))).filter
            fun r => r.2.any fun cv => !cv.2.isna)) := (Option.some.inj hok).symm
    have hrows2 : out.rows = sortByDate ((df.rows.map fun r =>
        (r.1, (derivCols df targets).map fun p => (p.1, plnCell r.2 p.2))).filter
          fun r => r.2.any fun cv => !cv.2.isna) := by rw [hout]
    have hsort : List.Pairwise rowLE out.rows := by
      rw [hrows2]
      exact sortByDate_sorted _
    have hdk : (out.rows.map Prod.fst).Nodup := by
      rw [hrows2]
      apply (((sortByDate_perm _).map Prod.fst).nodup_iff).2
      refine ((List.filter_sublist _).map Prod.fst).nodup ?_
      have hdd : ((df.rows.map fun r =>
          (r.1, (derivCols df targets).map fun p => (p.1, plnCell r.2 p.2))).map
            Prod.fst) = df.rows.map Prod.fst := by
        rw [List.map_map]
        apply List.map_congr_left
        intro r _
        rfl
      rw [hdd]
      exact hnd
    exact pairwise_lt_dates hsort hdk

/-- Claim C8, witness: inserting a later date into a sorted one-row
history returns strictly ascending rows. -/
theorem C8_witness : strictAsc (c8wRes.rows.map Prod.fst) = true :=
  C8_theorem.1 c8wHist (MergeOp.daily c8wObs) c8wRes (by decide) (by decide)
    (by decide)

end FxEtl
